import Mathlib

/-!
Verification of the structured source-patching engine specified for the
`artpromedia/email` repository, together with two concrete scripts that
ship in the repository (`scripts/fix_dup.py` and the `api` helper of
`smoke_test.py`).

The repository's own scripts are ad hoc instances of the engine; the
engine itself (Matcher, Transform, Rule, Plan, Executor, Verifier,
Report) is specified but not shipped, so those components are modelled
from the specification text.  Buffers are modelled as lists of
characters, file systems as association lists from a numeric path to a
buffer, and the commit path as explicit micro-steps on a disk state.
-/

namespace PatchEngine

/-- A text buffer: the in-memory content of one target file. -/
abbrev Buffer := List Char

/-- A located region `[start, stop)` within a buffer, in character offsets. -/
abbrev Span := Nat × Nat

/-- Index of the first occurrence of `needle` in `hay`, if any
(`some 0` for the empty needle, matching substring-search conventions). -/
def findFrom (needle : List Char) : List Char → Option Nat
  | [] => if needle = [] then some 0 else none
  | c :: t =>
    if needle.isPrefixOf (c :: t) then some 0
    else (findFrom needle t).map (· + 1)

/-- Whether `needle` occurs in `hay` as a contiguous substring. -/
def containsSub (needle hay : List Char) : Bool :=
  (findFrom needle hay).isSome

/-- Scanner for leftmost-first, non-overlapping occurrence spans of a
literal needle: `i` is the absolute position of the head of `hay`, and
`skip` is the number of positions still covered by the previous match
(so no overlapping match is recorded there). -/
def litSpansAux (needle : List Char) : List Char → Nat → Nat → List Span
  | [], _, _ => []
  | _ :: t, i, skip + 1 => litSpansAux needle t (i + 1) skip
  | c :: t, i, 0 =>
    if needle ≠ [] ∧ needle.isPrefixOf (c :: t) then
      (i, i + needle.length) :: litSpansAux needle t (i + 1) (needle.length - 1)
    else
      litSpansAux needle t (i + 1) 0

/-- Leftmost-first, non-overlapping occurrence spans of a literal needle. -/
def litSpans (needle hay : List Char) (i : Nat) : List Span :=
  litSpansAux needle hay i 0

/-- Number of non-overlapping occurrences of `needle` in `hay`. -/
def countOcc (needle hay : List Char) : Nat :=
  (litSpans needle hay 0).length

/-- Modelled from the spec: the `Pattern` datatype of the patching engine
(§3 Data Model); the engine is specified but absent from the repository.
The `Occurrences` variant is folded into the rule-level match-count
check, per the Matcher edge-case policy of §4.1. -/
inductive Pattern
  | Literal (s : List Char)
  | AnchoredBlock (startMarker endMarker : List Char)
  | LineRange (start stop : Nat)
deriving DecidableEq, Repr

/-- Modelled from the spec: Matcher failure modes (§4.1, §7). -/
inductive MatchErr
  | MalformedAnchor
  | OutOfRange
deriving DecidableEq, Repr

/-- Number of lines of a buffer (one more than the newline count, `readlines` style). -/
def lineCount (b : Buffer) : Nat :=
  1 + b.countP (· = '\n')

/-- Modelled from the spec: `find(buffer, pattern)` of the Matcher (§4.1).
Literal patterns scan leftmost-first, non-overlapping; AnchoredBlock
spans from the first occurrence of the start marker to the next
occurrence of the end marker at or after it, failing with
`MalformedAnchor` when the end marker is absent after a found start
marker; LineRange fails with `OutOfRange` when the buffer is shorter. -/
def find (buf : Buffer) : Pattern → Except MatchErr (List Span)
  | .Literal s => .ok (litSpans s buf 0)
  | .AnchoredBlock s e =>
    match findFrom s buf with
    | none => .ok []
    | some i =>
      match findFrom e (buf.drop i) with
      | none => .error .MalformedAnchor
      | some j => .ok [(i, i + j + e.length)]
  | .LineRange a b =>
    if lineCount buf < b then .error .OutOfRange
    else .ok [(a, b)]

/-- Modelled from the spec: the transform kinds of a Rule (§3, §4.2). -/
inductive TransformKind
  | InsertBefore
  | InsertAfter
  | ReplaceSpan
  | DeleteSpan
  | Append
deriving DecidableEq, Repr

/-- Modelled from the spec: `apply(buffer, span, kind, payload)` of the
Transform component (§4.2): a pure function returning a new buffer. -/
def applyTransform (b : Buffer) (sp : Span) (k : TransformKind)
    (payload : List Char) : Buffer :=
  match k with
  | .InsertBefore => b.take sp.1 ++ payload ++ b.drop sp.1
  | .InsertAfter => b.take sp.2 ++ payload ++ b.drop sp.2
  | .ReplaceSpan => b.take sp.1 ++ payload ++ b.drop sp.2
  | .DeleteSpan => b.take sp.1 ++ b.drop sp.2
  | .Append => b ++ payload

/-- Modelled from the spec: a Rule (§3): id, pattern, transform kind and
payload; the precondition is the idempotence check ("file must not
already contain payload") followed by an exactly-one-match requirement,
and the postcondition is "payload appears exactly once after transform". -/
structure Rule where
  id : Nat
  pattern : Pattern
  kind : TransformKind
  payload : List Char
deriving DecidableEq, Repr

/-- Modelled from the spec: per-rule Outcome (§3).  `FailedFileOp` stands
for the spec's `FailedIO` variant. -/
inductive Outcome
  | Applied
  | SkippedAlreadyApplied
  | FailedPrecondition (reason : List Char)
  | FailedVerification (reason : List Char)
  | FailedFileOp (reason : List Char)
deriving DecidableEq, Repr

/-- Whether an outcome stops further rules for the file (§4.4 fail-fast);
`Applied` and `SkippedAlreadyApplied` are the non-error outcomes. -/
def Outcome.isFailure : Outcome → Bool
  | .Applied => false
  | .SkippedAlreadyApplied => false
  | _ => true

/-- Modelled from the spec: Rule evaluation (§4.3): (1) idempotence
short-circuit when the payload is already present verbatim; (2) the
pattern must match exactly once, else `FailedPrecondition` (a Matcher
error is recovered here as an Outcome, per §7); (3) the Transform is
applied; (4) the Verifier requires the payload to appear exactly once in
the new buffer, else `FailedVerification` and the buffer reverts. -/
def applyRule (r : Rule) (b : Buffer) : Outcome × Buffer :=
  if containsSub r.payload b then (.SkippedAlreadyApplied, b)
  else
    match find b r.pattern with
    | .error _ => (.FailedPrecondition ['M', 'P'], b)
    | .ok spans =>
      match spans with
      | [sp] =>
        let nb := applyTransform b sp r.kind r.payload
        if countOcc r.payload nb = 1 then (.Applied, nb)
        else (.FailedVerification ['P', 'V'], b)
      | _ => (.FailedPrecondition ['P', 'C'], b)

/-- Result of running one file's rule chain in memory. -/
structure RunResult where
  outs : List (Nat × Outcome)
  buf : Buffer
  ok : Bool
deriving DecidableEq, Repr

/-- Modelled from the spec: the Executor's in-memory rule loop for one
file (§4.4): rules run strictly in declaration order, each against the
buffer left by its predecessors; on the first failing outcome the run
stops (fail-fast) and reports not-ok. -/
def runRules : List Rule → Buffer → RunResult
  | [], b => ⟨[], b, true⟩
  | r :: rs, b =>
    if (applyRule r b).1.isFailure then
      ⟨[(r.id, (applyRule r b).1)], (applyRule r b).2, false⟩
    else
      ⟨(r.id, (applyRule r b).1) :: (runRules rs (applyRule r b).2).outs,
       (runRules rs (applyRule r b).2).buf,
       (runRules rs (applyRule r b).2).ok⟩

/-- A file system: an association list from numeric target path to content;
lookups of absent paths read as empty content. -/
abbrev FS := List (Nat × Buffer)

/-- Content of path `p` in file system `fs`. -/
def fsGet : FS → Nat → Buffer
  | [], _ => []
  | (q, c) :: t, p => if q = p then c else fsGet t p

/-- Atomically replace the content of path `p` with `b`. -/
def fsSet (fs : FS) (p : Nat) (b : Buffer) : FS :=
  (p, b) :: fs

/-- Modelled from the spec: the Report (§3, §4.5): ordered outcomes per
file plus the derived sets of succeeded and failed files. -/
structure Report where
  outcomes : List (Nat × List (Nat × Outcome))
  succeededFiles : List Nat
  failedFiles : List Nat
deriving DecidableEq, Repr

/-- File-system events of one Executor run: a load or a committed write. -/
inductive Ev
  | load (p : Nat)
  | write (p : Nat)
deriving DecidableEq, Repr

/-- Modelled from the spec: the Executor over a whole Plan (§4.4): for
each target file, load it once, run its rule chain in memory, and only
on all-succeeded commit the final buffer (a single atomic write); on any
failure the file is rolled back and the disk is untouched.  Files are
independent of one another.  The event trace records every disk access. -/
def runPlan : List (Nat × List Rule) → FS → Report × FS × List Ev
  | [], fs => (⟨[], [], []⟩, fs, [])
  | (p, rs) :: rest, fs =>
    let res := runRules rs (fsGet fs p)
    let fs1 := if res.ok then fsSet fs p res.buf else fs
    (⟨(p, res.outs) :: (runPlan rest fs1).1.outcomes,
      (if res.ok then [p] else []) ++ (runPlan rest fs1).1.succeededFiles,
      (if res.ok then [] else [p]) ++ (runPlan rest fs1).1.failedFiles⟩,
     (runPlan rest fs1).2.1,
     Ev.load p :: ((if res.ok then [Ev.write p] else []) ++ (runPlan rest fs1).2.2))

/-- Modelled from the spec: the process exit contract (§6): 0 when every
file reached Committed, non-zero when any file was RolledBack. -/
def exitCode (r : Report) : Nat :=
  if r.failedFiles = [] then 0 else 1

/-- Whether an event touches path `p` on disk. -/
def evTouches (p : Nat) : Ev → Bool
  | .load q => decide (q = p)
  | .write q => decide (q = p)

/-- On-disk state of one target file during commit: the main file and an
optional temporary file sitting next to it. -/
structure Disk where
  main : List Char
  temp : Option (List Char)
deriving DecidableEq, Repr

/-- Write the new content to the temporary file; the main file is untouched. -/
def writeTempFile (d : Disk) (c : List Char) : Disk :=
  ⟨d.main, some c⟩

/-- Atomically rename the temporary file over the main file. -/
def renameTemp (d : Disk) : Disk :=
  match d.temp with
  | some c => ⟨c, none⟩
  | none => d

/-- Modelled from the spec: the commit path (§4.4, §6): write the final
buffer to a temp file in the same directory, then atomic rename. -/
def commitSteps (c : List Char) : List (Disk → Disk) :=
  [fun d => writeTempFile d c, renameTemp]

/-- Run a prefix of the commit micro-steps (a crash stops the run after
an arbitrary prefix). -/
def runSteps (d : Disk) (steps : List (Disk → Disk)) : Disk :=
  steps.foldl (fun s f => f s) d

end PatchEngine

namespace FixDup

open PatchEngine (containsSub)

/-- The literal `'Reminders'` tested by `scripts/fix_dup.py`. -/
def remindersLit : List Char := ['R', 'e', 'm', 'i', 'n', 'd', 'e', 'r', 's']

/-- The literal `'[]Reminder'` tested by `scripts/fix_dup.py`. -/
def reminderSliceLit : List Char :=
  ['[', ']', 'R', 'e', 'm', 'i', 'n', 'd', 'e', 'r']

/-- The loop's line test in `scripts/fix_dup.py`:
`'Reminders' in line and '[]Reminder' in line`. -/
def isDupLine (l : List Char) : Bool :=
  containsSub remindersLit l && containsSub reminderSliceLit l

/-- The filtering loop of `scripts/fix_dup.py` (lines 6-13): keep the
first line matching `isDupLine`, skip every later one, keep the rest;
`seen` is the `seen_reminders` flag. -/
def removeDups : Bool → List (List Char) → List (List Char)
  | _, [] => []
  | seen, l :: ls =>
    if isDupLine l then
      if seen then removeDups seen ls
      else l :: removeDups true ls
    else l :: removeDups seen ls

end FixDup

namespace SmokeTest

/-- A Python exception value (only its message matters here). -/
structure PyExn where
  msg : List Char
deriving DecidableEq, Repr

/-- Outcome of `urllib.request.urlopen` on the request built by `api`:
a success response, an `HTTPError` carrying a status code and body
bytes, or any other exception (connection error, timeout, ...). -/
inductive UrlopenOutcome
  | okResp (status : Nat) (bytes : List Nat)
  | httpError (code : Nat) (bytes : List Nat)
  | otherExc (msg : List Char)
deriving DecidableEq, Repr

/-- The body half of `api`'s return value: a parsed JSON value or the
raw decoded string. -/
inductive ApiBody (J : Type)
  | json (j : J)
  | raw (s : List Char)
deriving DecidableEq, Repr

/-- The inner `try: return status, json.loads(body) except: return
status, body` of `api` (`smoke_test.py` lines 26-29 and 32-35):
`loads` returns `none` when `json.loads` raises. -/
def parsedOrRaw {J : Type} (loads : List Char → Option J)
    (body : List Char) : ApiBody J :=
  match loads body with
  | some j => .json j
  | none => .raw body

/-- The `try`/`except` block of `api` (`smoke_test.py` lines 23-37).
`dec` models `bytes.decode('utf-8')`, which raises on invalid UTF-8.
In the success branch a decode failure is caught by the trailing
`except Exception` and becomes `(0, str(e))`; in the `HTTPError`
branch, `e.read().decode('utf-8')` runs inside the handler, so a decode
failure there propagates out of the function. -/
def apiTryBlock {J : Type} (dec : List Nat → Except PyExn (List Char))
    (loads : List Char → Option J) (net : UrlopenOutcome) :
    Except PyExn (Nat × ApiBody J) :=
  match net with
  | .okResp st bs =>
    match dec bs with
    | .error e => .ok (0, .raw e.msg)
    | .ok body => .ok (st, parsedOrRaw loads body)
  | .httpError code bs =>
    match dec bs with
    | .error e => .error e
    | .ok body => .ok (code, parsedOrRaw loads body)
  | .otherExc msg => .ok (0, .raw msg)

/-- The `api` helper of `smoke_test.py` (lines 15-37).  `dumps` models
`json.dumps(data).encode('utf-8')`, which runs before the `try` block,
so its exception (a non-serializable payload) propagates; `net` is the
outcome of `urlopen` for the request built from method, url, payload
bytes and headers. -/
def api {P J : Type} (dumps : P → Except PyExn (List Nat))
    (dec : List Nat → Except PyExn (List Char))
    (loads : List Char → Option J)
    ( _method _url : List Char) (data : Option P)
    ( _headers : List (List Char × List Char)) (net : UrlopenOutcome) :
    Except PyExn (Nat × ApiBody J) :=
  match data with
  | none => apiTryBlock dec loads net
  | some d =>
    match dumps d with
    | .error e => .error e
    | .ok _ => apiTryBlock dec loads net

end SmokeTest

namespace PatchEngine
theorem containsSub_false_cons {needle : List Char} {c : Char} {t : List Char}
    (h : containsSub needle (c :: t) = false) :
    needle.isPrefixOf (c :: t) = false ∧ containsSub needle t = false := by
  simp only [containsSub, findFrom] at h
  by_cases hp : needle.isPrefixOf (c :: t) = true
  · rw [hp] at h
    simp at h
  · simp only [Bool.not_eq_true] at hp
    refine ⟨hp, ?_⟩
    rw [hp] at h
    simp only [containsSub]
    simpa using h

theorem litSpansAux_nil_of_not_contains {needle : List Char} :
    ∀ (hay : List Char) (i skip : Nat), containsSub needle hay = false →
      litSpansAux needle hay i skip = [] := by
  intro hay
  induction hay with
  | nil => intro i skip _; rfl
  | cons c t ih =>
    intro i skip h
    obtain ⟨hp, ht⟩ := containsSub_false_cons h
    match skip with
    | skip + 1 => exact ih (i + 1) skip ht
    | 0 =>
      rw [litSpansAux, if_neg]
      · exact ih (i + 1) 0 ht
      · intro hc
        rw [hp] at hc
        exact absurd hc.2 (by simp)

theorem countOcc_one_contains {needle hay : List Char}
    (h : countOcc needle hay = 1) : containsSub needle hay = true := by
  by_contra hc
  rw [Bool.not_eq_true] at hc
  rw [countOcc, litSpans, litSpansAux_nil_of_not_contains hay 0 0 hc] at h
  exact absurd h (by simp)

theorem applyRule_of_contains (r : Rule) (b : Buffer)
    (h : containsSub r.payload b = true) :
    applyRule r b = (.SkippedAlreadyApplied, b) := by
  simp [applyRule, h]

theorem applyRule_applied_countOcc (r : Rule) (b : Buffer)
    (h : (applyRule r b).1 = .Applied) :
    countOcc r.payload (applyRule r b).2 = 1 := by
  by_cases hc : containsSub r.payload b = true
  · rw [applyRule_of_contains r b hc] at h
    exact absurd h (by simp)
  · simp only [applyRule, hc, if_false, Bool.false_eq_true] at h ⊢
    cases hfind : find b r.pattern with
    | error e => rw [hfind] at h; simp at h
    | ok spans =>
      rw [hfind] at h
      rcases spans with _ | ⟨sp, _ | ⟨sp2, rest⟩⟩
      · simp at h
      · by_cases hcount :
            countOcc r.payload (applyTransform b sp r.kind r.payload) = 1
        · simp [hcount]
        · simp [hcount] at h
      · simp at h

theorem applyRule_succ_contains (r : Rule) (b : Buffer)
    (h : (applyRule r b).1 = .Applied ∨
         (applyRule r b).1 = .SkippedAlreadyApplied) :
    containsSub r.payload (applyRule r b).2 = true := by
  rcases h with h | h
  · exact countOcc_one_contains (applyRule_applied_countOcc r b h)
  · by_cases hc : containsSub r.payload b = true
    · rw [applyRule_of_contains r b hc]
      exact hc
    · simp only [applyRule, hc, if_false, Bool.false_eq_true] at h
      cases hfind : find b r.pattern with
      | error e => rw [hfind] at h; simp at h
      | ok spans =>
        rw [hfind] at h
        rcases spans with _ | ⟨sp, _ | ⟨sp2, rest⟩⟩
        · simp at h
        · by_cases hcount :
              countOcc r.payload (applyTransform b sp r.kind r.payload) = 1 <;>
            simp [hcount] at h
        · simp at h

/-- Claim C7: rules run strictly in plan order — running `xs ++ ys`
first computes the run of `xs` without any reference to `ys`, and when
`xs` succeeds, `ys` runs against exactly the buffer left by `xs`; so a
later rule always sees the buffer produced by the earlier rules and an
earlier rule never sees content inserted by a later one. -/
theorem runRules_ordered (xs ys : List Rule) (b : Buffer) :
    runRules (xs ++ ys) b =
      if (runRules xs b).ok = true then
        ⟨(runRules xs b).outs ++ (runRules ys (runRules xs b).buf).outs,
         (runRules ys (runRules xs b).buf).buf,
         (runRules ys (runRules xs b).buf).ok⟩
      else runRules xs b := by
  induction xs generalizing b with
  | nil => simp [runRules]
  | cons r xs ih =>
    rw [List.cons_append]
    by_cases hf : (applyRule r b).1.isFailure = true
    · rw [runRules, if_pos hf, runRules, if_pos hf]
      simp
    · rw [runRules, if_neg hf, runRules, if_neg hf, ih]
      by_cases hxok : (runRules xs (applyRule r b).2).ok = true
      · rw [if_pos hxok]
        simp [hxok]
      · rw [if_neg hxok]
        simp only [Bool.not_eq_true] at hxok
        simp [hxok]

/-- Claim C4: for every buffer in which an AnchoredBlock pattern's start
marker occurs (first occurrence at `i`) but its end marker does not
occur at or after that point, the Matcher fails with `MalformedAnchor`
instead of producing a span. -/
theorem anchoredBlock_malformed (s e buf : List Char) (i : Nat)
    (h1 : findFrom s buf = some i)
    (h2 : containsSub e (buf.drop i) = false) :
    find buf (Pattern.AnchoredBlock s e) = .error .MalformedAnchor := by
  have hn : findFrom e (buf.drop i) = none := by
    cases hx : findFrom e (List.drop i buf) with
    | none => rfl
    | some j => rw [containsSub, hx] at h2; simp at h2
  simp [find, h1, hn]

/-- Witness for the C4 theorem: buffer `x[y` with markers `[` and `]`. -/
theorem anchoredBlock_malformed_witness :
    find ['x', '[', 'y'] (Pattern.AnchoredBlock ['['] [']']) =
      .error .MalformedAnchor :=
  anchoredBlock_malformed ['['] [']'] ['x', '[', 'y'] 1 (by decide) (by decide)

/-- Claim C2: the commit path writes the final buffer to a temporary
file next to the original and then performs an atomic rename; after any
prefix of the commit micro-steps (any crash point) the on-disk main file
is byte-for-byte the old content or byte-for-byte the new content, never
a mixture; in particular a crash after the temp-file write but before
the rename leaves the original unchanged, and the completed commit
installs the new content. -/
theorem commit_atomic (d : Disk) (c : List Char) (k : Nat) :
    ((runSteps d ((commitSteps c).take k)).main = d.main ∨
     (runSteps d ((commitSteps c).take k)).main = c) ∧
    (runSteps d ((commitSteps c).take 1)).main = d.main ∧
    (runSteps d (commitSteps c)).main = c := by
  have h0 : runSteps d ((commitSteps c).take 0) = d := rfl
  have h1 : runSteps d ((commitSteps c).take 1) = ⟨d.main, some c⟩ := rfl
  have h2 : runSteps d (commitSteps c) = ⟨c, none⟩ := rfl
  refine ⟨?_, by rw [h1], by rw [h2]⟩
  match k with
  | 0 => exact Or.inl (by rw [h0])
  | 1 => exact Or.inl (by rw [h1])
  | n + 2 =>
    have ht : (commitSteps c).take (n + 2) = commitSteps c := by
      simp [commitSteps]
    rw [ht, h2]
    exact Or.inr rfl

/-- Claim C8: the Transform is a pure, deterministic function of
(buffer, span, kind, payload) — two runs on equal inputs produce equal
buffers — and it performs no storage write: over a plan run, the file
system changes only by the Executor's final commit, never during
transform application. -/
theorem transform_pure :
    (∀ (b₁ b₂ : Buffer) (s₁ s₂ : Span) (k₁ k₂ : TransformKind)
       (p₁ p₂ : List Char), b₁ = b₂ → s₁ = s₂ → k₁ = k₂ → p₁ = p₂ →
       applyTransform b₁ s₁ k₁ p₁ = applyTransform b₂ s₂ k₂ p₂) ∧
    (∀ (p : Nat) (rs : List Rule) (fs : FS),
       (runPlan [(p, rs)] fs).2.1 =
         if (runRules rs (fsGet fs p)).ok = true then
           fsSet fs p (runRules rs (fsGet fs p)).buf
         else fs) := by
  constructor
  · intro b₁ b₂ s₁ s₂ k₁ k₂ p₁ p₂ hb hs hk hp
    rw [hb, hs, hk, hp]
  · intro p rs fs
    simp only [runPlan]

/-- Witness for the C8 theorem: determinism at a concrete input. -/
theorem transform_pure_witness :
    applyTransform ['a'] (0, 1) .Append ['b'] =
      applyTransform ['a'] (0, 1) .Append ['b'] :=
  transform_pure.1 ['a'] ['a'] (0, 1) (0, 1) .Append .Append ['b'] ['b']
    rfl rfl rfl rfl

/-- Claim C1 (amended): a Rule is idempotent — applying a rule that just
returned `Applied` once more, to the buffer it produced, yields
`SkippedAlreadyApplied` and leaves the buffer unchanged, never a
duplicate edit; and running a rule chain against a buffer that already
contains every rule's payload yields `SkippedAlreadyApplied` for every
rule and an unchanged buffer — so a second plan run reproduces the first
run's final buffer whenever that buffer still contains every payload. -/
theorem rule_idempotent :
    (∀ (r : Rule) (b : Buffer), (applyRule r b).1 = .Applied →
       applyRule r (applyRule r b).2 =
         (.SkippedAlreadyApplied, (applyRule r b).2)) ∧
    (∀ (rs : List Rule) (bf : Buffer),
       (∀ r ∈ rs, containsSub r.payload bf = true) →
       runRules rs bf =
         ⟨rs.map (fun r => (r.id, Outcome.SkippedAlreadyApplied)), bf, true⟩) := by
  constructor
  · intro r b h
    exact applyRule_of_contains _ _ (applyRule_succ_contains r b (Or.inl h))
  · intro rs
    induction rs with
    | nil => intro bf _; rfl
    | cons r rs ih =>
      intro bf hall
      have hr := hall r (by simp)
      have hrest := ih bf (fun r' hm => hall r' (List.mem_cons_of_mem _ hm))
      simp [runRules, applyRule_of_contains r bf hr, Outcome.isFailure, hrest]

/-- Witness for the C1 theorem at a concrete rule and buffer. -/
theorem rule_idempotent_witness :
    applyRule ⟨1, Pattern.Literal ['a'], TransformKind.InsertAfter, ['X']⟩
        (applyRule ⟨1, Pattern.Literal ['a'], TransformKind.InsertAfter, ['X']⟩
          ['a']).2 =
      (.SkippedAlreadyApplied,
       (applyRule ⟨1, Pattern.Literal ['a'], TransformKind.InsertAfter, ['X']⟩
         ['a']).2) :=
  rule_idempotent.1 _ _ (by decide)

/-- Claim C1 counterexample: in the plan [insert X after a; replace X by
Y] on the file `a`, the second rule overwrites the first rule's payload,
so the first run commits `aY` while a second run of the same plan
re-applies rule 1 and commits `aXY` — the final buffers differ, refuting
unrestricted plan-level idempotence. -/
theorem plan_not_idempotent :
    fsGet (runPlan
        [(0, [⟨1, Pattern.Literal ['a'], TransformKind.InsertAfter, ['X']⟩,
              ⟨2, Pattern.Literal ['X'], TransformKind.ReplaceSpan, ['Y']⟩])]
        (runPlan
          [(0, [⟨1, Pattern.Literal ['a'], TransformKind.InsertAfter, ['X']⟩,
                ⟨2, Pattern.Literal ['X'], TransformKind.ReplaceSpan, ['Y']⟩])]
          [(0, ['a'])]).2.1).2.1 0 ≠
      fsGet (runPlan
        [(0, [⟨1, Pattern.Literal ['a'], TransformKind.InsertAfter, ['X']⟩,
              ⟨2, Pattern.Literal ['X'], TransformKind.ReplaceSpan, ['Y']⟩])]
        [(0, ['a'])]).2.1 0 := by
  decide

theorem runPlan_succeeded_subset :
    ∀ (plan : List (Nat × List Rule)) (fs : FS) (p : Nat),
      p ∈ (runPlan plan fs).1.succeededFiles → p ∈ plan.map Prod.fst := by
  intro plan
  induction plan with
  | nil => intro fs p h; simp [runPlan] at h
  | cons e rest ih =>
    intro fs p h
    obtain ⟨q, qs⟩ := e
    simp only [runPlan] at h
    by_cases hok : (runRules qs (fsGet fs q)).ok = true
    · simp only [hok, if_true] at h
      rcases List.mem_append.mp h with h | h
      · simp only [List.mem_singleton] at h
        simp [h]
      · exact List.mem_cons_of_mem _ (ih _ p h)
    · simp only [hok, Bool.false_eq_true, if_false, List.nil_append] at h
      exact List.mem_cons_of_mem _ (ih _ p h)

theorem runPlan_failed_nil_iff :
    ∀ (plan : List (Nat × List Rule)) (fs : FS),
      (plan.map Prod.fst).Nodup →
      ((runPlan plan fs).1.failedFiles = [] ↔
        ∀ p rs, (p, rs) ∈ plan → p ∈ (runPlan plan fs).1.succeededFiles) := by
  intro plan
  induction plan with
  | nil => intro fs _; simp [runPlan]
  | cons e rest ih =>
    intro fs hnd
    obtain ⟨q, qs⟩ := e
    simp only [List.map_cons, List.nodup_cons] at hnd
    obtain ⟨hq, hndr⟩ := hnd
    simp only [runPlan]
    by_cases hok : (runRules qs (fsGet fs q)).ok = true
    · simp only [hok, if_true, List.nil_append, List.singleton_append]
      constructor
      · intro hnil p rs hm
        rcases List.mem_cons.mp hm with h | h
        · injection h with h1 h2
          subst h1
          exact List.mem_cons_self _ _
        · exact List.mem_cons_of_mem _
            ((ih _ hndr).mp hnil p rs h)
      · intro hall
        refine (ih _ hndr).mpr ?_
        intro p rs hm
        have hmem := hall p rs (List.mem_cons_of_mem _ hm)
        rcases List.mem_cons.mp hmem with h | h
        · subst h
          exact absurd (List.mem_map.mpr ⟨(p, rs), hm, rfl⟩) hq
        · exact h
    · simp only [hok, Bool.false_eq_true, if_false, List.singleton_append,
        List.nil_append]
      constructor
      · intro h
        exact absurd h (by simp)
      · intro hall
        exfalso
        have hmem := hall q qs (List.mem_cons_self _ _)
        exact hq (runPlan_succeeded_subset rest fs q hmem)

/-- Claim C5: for a plan over distinct target paths, the process exit
code is 0 exactly when every file of the plan reached the Committed
state (is among the succeeded files), and the exit code is non-zero
whenever any file was rolled back. -/
theorem exit_code_contract (plan : List (Nat × List Rule)) (fs : FS)
    (hnd : (plan.map Prod.fst).Nodup) :
    ((exitCode (runPlan plan fs).1 = 0) ↔
      (∀ p rs, (p, rs) ∈ plan → p ∈ (runPlan plan fs).1.succeededFiles)) ∧
    (∀ p, p ∈ (runPlan plan fs).1.failedFiles →
      exitCode (runPlan plan fs).1 ≠ 0) := by
  have hiff := runPlan_failed_nil_iff plan fs hnd
  constructor
  · rw [← hiff]
    unfold exitCode
    by_cases hf : (runPlan plan fs).1.failedFiles = [] <;> simp [hf]
  · intro p hp
    have hne : (runPlan plan fs).1.failedFiles ≠ [] := List.ne_nil_of_mem hp
    simp [exitCode, hne]

/-- Witness for the C5 theorem: a plan whose single file fails its rule
exits non-zero. -/
theorem exit_code_contract_witness :
    exitCode (runPlan
        [(0, [⟨1, Pattern.Literal ['z'], TransformKind.Append, ['Q']⟩])]
        [(0, ['a'])]).1 ≠ 0 :=
  (exit_code_contract
    [(0, [⟨1, Pattern.Literal ['z'], TransformKind.Append, ['Q']⟩])]
    [(0, ['a'])] (by decide)).2 0 (by decide)

/-- Claim C6 (amended): every rule the Executor attempts produces
exactly one Outcome in the Report — the recorded outcome ids are
precisely the ids of a prefix of the file's rules, the whole rule list
when the run succeeds; and no failure is silently swallowed: a rule can
only report `Applied` when its pattern matched exactly once. -/
theorem report_outcomes :
    (∀ (rs : List Rule) (b : Buffer), ∃ k, k ≤ rs.length ∧
       (runRules rs b).outs.map Prod.fst = (rs.take k).map Rule.id ∧
       ((runRules rs b).ok = true → k = rs.length)) ∧
    (∀ (r : Rule) (b : Buffer), (applyRule r b).1 = .Applied →
       ∃ sp, find b r.pattern = .ok [sp]) := by
  constructor
  · intro rs
    induction rs with
    | nil => intro b; exact ⟨0, by simp [runRules]⟩
    | cons r rs ih =>
      intro b
      by_cases hf : (applyRule r b).1.isFailure = true
      · refine ⟨1, by simp, by simp [runRules, hf], by simp [runRules, hf]⟩
      · obtain ⟨k, hk, houts, hok⟩ := ih (applyRule r b).2
        refine ⟨k + 1, by simpa using hk, by simp [runRules, hf, houts], ?_⟩
        intro hall
        have h2 : (runRules rs (applyRule r b).2).ok = true := by
          simpa [runRules, hf] using hall
        simp [hok h2]
  · intro r b h
    by_cases hc : containsSub r.payload b = true
    · rw [applyRule_of_contains r b hc] at h
      exact absurd h (by simp)
    · simp only [applyRule, hc, Bool.false_eq_true, if_false] at h
      cases hfind : find b r.pattern with
      | error e => rw [hfind] at h; simp at h
      | ok spans =>
        rw [hfind] at h
        rcases spans with _ | ⟨sp, _ | ⟨sp2, rest⟩⟩
        · simp at h
        · exact ⟨sp, rfl⟩
        · simp at h

/-- Witness for the C6 theorem at a concrete rule whose pattern matches
exactly once. -/
theorem report_outcomes_witness :
    ∃ sp, find ['a'] (Pattern.Literal ['a']) = .ok [sp] :=
  report_outcomes.2 ⟨1, Pattern.Literal ['a'], TransformKind.InsertAfter, ['X']⟩
    ['a'] (by decide)

/-- Claim C6 counterexample: in a file whose first rule fails, the
second rule (id 2) is never attempted under fail-fast and the Report
holds no outcome for it, refuting \"every rule produces exactly one
Outcome\" as stated. -/
theorem report_gap_counterexample :
    ((2 : Nat) ∉ (runRules
        [⟨1, Pattern.Literal ['z'], TransformKind.Append, ['Q']⟩,
         ⟨2, Pattern.Literal ['X'], TransformKind.ReplaceSpan, ['Y']⟩]
        ['a']).outs.map Prod.fst) ∧
    (⟨2, Pattern.Literal ['X'], TransformKind.ReplaceSpan, ['Y']⟩ : Rule) ∈
      [⟨1, Pattern.Literal ['z'], TransformKind.Append, ['Q']⟩,
       ⟨2, Pattern.Literal ['X'], TransformKind.ReplaceSpan, ['Y']⟩] := by
  decide

theorem fsGet_fsSet (fs : FS) (q : Nat) (b : Buffer) (p : Nat) :
    fsGet (fsSet fs q b) p = if q = p then b else fsGet fs p := rfl

theorem runPlan_untouched :
    ∀ (plan : List (Nat × List Rule)) (fs : FS) (p : Nat),
      p ∉ plan.map Prod.fst →
      (runPlan plan fs).2.2.filter (evTouches p) = [] ∧
      fsGet (runPlan plan fs).2.1 p = fsGet fs p := by
  intro plan
  induction plan with
  | nil => intro fs p _; exact ⟨rfl, rfl⟩
  | cons e rest ih =>
    intro fs p hp
    obtain ⟨q, qs⟩ := e
    simp only [List.map_cons, List.mem_cons, not_or] at hp
    obtain ⟨hpq, hrest⟩ := hp
    simp only [runPlan]
    constructor
    · by_cases hok : (runRules qs (fsGet fs q)).ok = true
      · simp [hok, evTouches, Ne.symm hpq,
          (ih (fsSet fs q (runRules qs (fsGet fs q)).buf) p hrest).1]
      · simp [hok, evTouches, Ne.symm hpq, (ih fs p hrest).1]
    · by_cases hok : (runRules qs (fsGet fs q)).ok = true
      · rw [if_pos hok,
          (ih (fsSet fs q (runRules qs (fsGet fs q)).buf) p hrest).2,
          fsGet_fsSet, if_neg (Ne.symm hpq)]
      · rw [if_neg hok, (ih fs p hrest).2]

/-- Claim C3: per plan execution, the disk-event trace restricted to a
target file is exactly one load followed by at most one write, the write
occurring only when every rule for that file succeeded (the write is
deferred to the very end); and if any rule for the file fails, the
file's on-disk content equals its pre-plan state. -/
theorem load_once_write_once :
    ∀ (plan : List (Nat × List Rule)) (fs : FS) (p : Nat) (rs : List Rule),
      (plan.map Prod.fst).Nodup → (p, rs) ∈ plan →
      ((runPlan plan fs).2.2.filter (evTouches p) =
         Ev.load p :: (if (runRules rs (fsGet fs p)).ok = true
                       then [Ev.write p] else [])) ∧
      ((runRules rs (fsGet fs p)).ok = false →
         fsGet (runPlan plan fs).2.1 p = fsGet fs p) := by
  intro plan
  induction plan with
  | nil => intro fs p rs _ hm; simp at hm
  | cons e rest ih =>
    intro fs p rs hnd hm
    obtain ⟨q, qs⟩ := e
    simp only [List.map_cons, List.nodup_cons] at hnd
    obtain ⟨hq, hndr⟩ := hnd
    rcases List.mem_cons.mp hm with h | h
    · injection h with h1 h2
      subst h1
      subst h2
      simp only [runPlan]
      constructor
      · by_cases hok : (runRules rs (fsGet fs p)).ok = true
        · simp [hok, evTouches,
            (runPlan_untouched rest
              (fsSet fs p (runRules rs (fsGet fs p)).buf) p hq).1]
        · simp [hok, evTouches, (runPlan_untouched rest fs p hq).1]
      · intro hnok
        rw [if_neg (by simp [hnok]), (runPlan_untouched rest fs p hq).2]
    · have hpq : q ≠ p := by
        intro he
        subst he
        exact hq (List.mem_map.mpr ⟨(q, rs), h, rfl⟩)
      simp only [runPlan]
      have hfs1 : ∀ b, fsGet (fsSet fs q b) p = fsGet fs p := by
        intro b
        rw [fsGet_fsSet, if_neg hpq]
      constructor
      · by_cases hok : (runRules qs (fsGet fs q)).ok = true
        · have hih := (ih (fsSet fs q (runRules qs (fsGet fs q)).buf)
            p rs hndr h).1
          rw [hfs1] at hih
          simp [hok, evTouches, hpq, hih]
        · have hih := (ih fs p rs hndr h).1
          simp [hok, evTouches, hpq, hih]
      · intro hnok
        by_cases hok : (runRules qs (fsGet fs q)).ok = true
        · have hih := (ih (fsSet fs q (runRules qs (fsGet fs q)).buf)
            p rs hndr h).2
          rw [hfs1] at hih
          rw [if_pos hok, hih hnok]
        · have hih := (ih fs p rs hndr h).2
          rw [if_neg hok, hih hnok]

/-- Witness for the C3 theorem: a one-file plan whose single rule fails;
the trace holds exactly one load and no write, and the disk content for
the file is preserved. -/
theorem load_once_write_once_witness :
    ((runPlan [(0, [⟨1, Pattern.Literal ['z'], TransformKind.Append, ['Q']⟩])]
        [(0, ['a'])]).2.2.filter (evTouches 0) =
       Ev.load 0 ::
         (if (runRules [⟨1, Pattern.Literal ['z'], TransformKind.Append, ['Q']⟩]
               (fsGet [(0, ['a'])] 0)).ok = true
          then [Ev.write 0] else [])) ∧
    ((runRules [⟨1, Pattern.Literal ['z'], TransformKind.Append, ['Q']⟩]
        (fsGet [(0, ['a'])] 0)).ok = false →
       fsGet (runPlan
           [(0, [⟨1, Pattern.Literal ['z'], TransformKind.Append, ['Q']⟩])]
           [(0, ['a'])]).2.1 0 =
         fsGet [(0, ['a'])] 0) :=
  load_once_write_once
    [(0, [⟨1, Pattern.Literal ['z'], TransformKind.Append, ['Q']⟩])]
    [(0, ['a'])] 0 [⟨1, Pattern.Literal ['z'], TransformKind.Append, ['Q']⟩]
    (by decide) (by decide)

end PatchEngine

namespace FixDup

theorem removeDups_true_eq_filter :
    ∀ ls, removeDups true ls = ls.filter (fun l => !isDupLine l) := by
  intro ls
  induction ls with
  | nil => rfl
  | cons l ls ih =>
    by_cases hd : isDupLine l = true
    · simp [removeDups, hd, ih]
    · simp only [Bool.not_eq_true] at hd
      simp [removeDups, hd, ih]

theorem removeDups_sublist :
    ∀ (seen : Bool) (ls : List (List Char)),
      List.Sublist (removeDups seen ls) ls := by
  intro seen ls
  induction ls generalizing seen with
  | nil => simp [removeDups]
  | cons l ls ih =>
    by_cases hd : isDupLine l = true
    · cases seen
      · simpa [removeDups, hd] using (ih true).cons₂ l
      · simpa [removeDups, hd] using (ih true).cons l
    · simp only [Bool.not_eq_true] at hd
      cases seen
      · simpa [removeDups, hd] using (ih false).cons₂ l
      · simpa [removeDups, hd] using (ih true).cons₂ l

theorem filter_dup_filter_not (ls : List (List Char)) :
    (ls.filter (fun l => !isDupLine l)).filter isDupLine = [] := by
  induction ls with
  | nil => rfl
  | cons l ls ih =>
    by_cases hd : isDupLine l = true
    · simp [List.filter_cons, hd, ih]
    · simp only [Bool.not_eq_true] at hd
      simp [List.filter_cons, hd, ih]

theorem filter_not_idem (ls : List (List Char)) :
    (ls.filter (fun l => !isDupLine l)).filter (fun l => !isDupLine l) =
      ls.filter (fun l => !isDupLine l) := by
  induction ls with
  | nil => rfl
  | cons l ls ih =>
    by_cases hd : isDupLine l = true
    · simp [List.filter_cons, hd, ih]
    · simp only [Bool.not_eq_true] at hd
      simp [List.filter_cons, hd, ih]

theorem fixDup_filter_dup (ls : List (List Char)) :
    (removeDups false ls).filter isDupLine = (ls.filter isDupLine).take 1 := by
  induction ls with
  | nil => rfl
  | cons l ls ih =>
    by_cases hd : isDupLine l = true
    · simp [removeDups, hd, removeDups_true_eq_filter, List.filter_cons,
        filter_dup_filter_not]
    · simp only [Bool.not_eq_true] at hd
      simp [removeDups, hd, List.filter_cons, ih]

theorem fixDup_filter_not (ls : List (List Char)) :
    (removeDups false ls).filter (fun l => !isDupLine l) =
      ls.filter (fun l => !isDupLine l) := by
  induction ls with
  | nil => rfl
  | cons l ls ih =>
    by_cases hd : isDupLine l = true
    · simp [removeDups, hd, removeDups_true_eq_filter, List.filter_cons,
        filter_not_idem]
    · simp only [Bool.not_eq_true] at hd
      simp [removeDups, hd, List.filter_cons, ih]

theorem fixDup_idem (ls : List (List Char)) :
    removeDups false (removeDups false ls) = removeDups false ls := by
  induction ls with
  | nil => rfl
  | cons l ls ih =>
    by_cases hd : isDupLine l = true
    · simp [removeDups, hd, removeDups_true_eq_filter, filter_not_idem]
    · simp only [Bool.not_eq_true] at hd
      simp [removeDups, hd, ih]

/-- Claim C9: the duplicate-field removal pass of `scripts/fix_dup.py`
keeps the first line containing both `Reminders` and `[]Reminder`,
removes every later such line, and leaves all other lines unchanged in
their original relative order (the output's matching lines are the first
matching input line, its non-matching lines are exactly the input's, and
the output is a sublist of the input); the output holds at most one
matching line, and the pass is idempotent. -/
theorem fix_dup_correct :
    ∀ ls : List (List Char),
      (removeDups false ls).filter isDupLine =
        (ls.filter isDupLine).take 1 ∧
      (removeDups false ls).filter (fun l => !isDupLine l) =
        ls.filter (fun l => !isDupLine l) ∧
      List.Sublist (removeDups false ls) ls ∧
      (removeDups false ls).countP isDupLine ≤ 1 ∧
      removeDups false (removeDups false ls) = removeDups false ls := by
  intro ls
  refine ⟨fixDup_filter_dup ls, fixDup_filter_not ls,
    removeDups_sublist false ls, ?_, fixDup_idem ls⟩
  rw [List.countP_eq_length_filter, fixDup_filter_dup ls, List.length_take]
  exact min_le_left _ _

end FixDup

namespace SmokeTest

/-- Claim C10 counterexample: `api` is not total at its interface — a
payload on which `json.dumps` raises propagates the exception (the dump
runs before the try block), and an HTTP error response whose body fails
UTF-8 decoding raises inside the except handler and propagates. -/
theorem api_propagates_counterexample :
    (@api Unit Unit (fun _ => .error ⟨['n', 's']⟩) (fun _ => .ok [])
        (fun _ => none) [] [] (some ()) [] (.otherExc []) =
      .error ⟨['n', 's']⟩) ∧
    (@api Unit Unit (fun _ => .ok []) (fun _ => .error ⟨['u', 'd']⟩)
        (fun _ => none) [] [] none [] (.httpError 500 [255]) =
      .error ⟨['u', 'd']⟩) :=
  ⟨rfl, rfl⟩

/-- Claim C10 (amended): whenever the payload (if any) serializes and,
in the HTTP-error branch, the error body decodes, `api` returns a
(status, body) pair and never propagates: a success response yields its
status with the parsed-or-raw body, an `HTTPError` yields its code with
the parsed-or-raw body, and any other urlopen failure yields status 0
with the error message as body. -/
theorem api_total_amended (P J : Type)
    (dumps : P → Except PyExn (List Nat))
    (dec : List Nat → Except PyExn (List Char))
    (loads : List Char → Option J)
    (method url : List Char) (data : Option P)
    (headers : List (List Char × List Char)) (net : UrlopenOutcome)
    (h1 : ∀ d, data = some d → ∃ bs, dumps d = .ok bs)
    (h2 : ∀ c bs, net = .httpError c bs → ∃ s, dec bs = .ok s) :
    (∃ st b, api dumps dec loads method url data headers net =
       .ok (st, b)) ∧
    (∀ msg, net = .otherExc msg →
       api dumps dec loads method url data headers net = .ok (0, .raw msg)) ∧
    (∀ c bs s, net = .httpError c bs → dec bs = .ok s →
       api dumps dec loads method url data headers net =
         .ok (c, parsedOrRaw loads s)) ∧
    (∀ st bs s, net = .okResp st bs → dec bs = .ok s →
       api dumps dec loads method url data headers net =
         .ok (st, parsedOrRaw loads s)) := by
  have hapi : api dumps dec loads method url data headers net =
      apiTryBlock dec loads net := by
    cases data with
    | none => rfl
    | some d =>
      obtain ⟨bs, hbs⟩ := h1 d rfl
      simp [api, hbs]
  refine ⟨?_, ?_, ?_, ?_⟩
  · rw [hapi]
    cases net with
    | okResp st bs =>
      cases hdec : dec bs with
      | error e => exact ⟨0, .raw e.msg, by simp [apiTryBlock, hdec]⟩
      | ok s => exact ⟨st, parsedOrRaw loads s, by simp [apiTryBlock, hdec]⟩
    | httpError c bs =>
      obtain ⟨s, hs⟩ := h2 c bs rfl
      exact ⟨c, parsedOrRaw loads s, by simp [apiTryBlock, hs]⟩
    | otherExc msg => exact ⟨0, .raw msg, rfl⟩
  · intro msg hnet
    subst hnet
    rw [hapi]
    rfl
  · intro c bs s hnet hdec
    subst hnet
    rw [hapi]
    simp [apiTryBlock, hdec]
  · intro st bs s hnet hdec
    subst hnet
    rw [hapi]
    simp [apiTryBlock, hdec]

/-- Witness for the C10 theorem: a concrete 404 `HTTPError` with an
empty, decodable body. -/
theorem api_total_amended_witness :
    @api Unit Unit (fun _ => .ok []) (fun _ => .ok []) (fun _ => none)
        [] [] none [] (.httpError 404 []) =
      .ok (404, parsedOrRaw (fun _ => none) []) :=
  (api_total_amended Unit Unit (fun _ => Except.ok [])
    (fun _ => Except.ok []) (fun _ => none) [] [] none []
    (UrlopenOutcome.httpError 404 [])
    (fun _d hd => nomatch hd)
    (fun _c _bs _ => ⟨[], rfl⟩)).2.2.1 404 [] [] rfl rfl

end SmokeTest
